import Mathlib

/-!
Verification of the multi-keyword patent search service: the merge/scoring
algorithm of `patent_service.py`, the request validation of `schemas.py`,
the cache manager of `data_manager.py`, and the text processor of
`processor.py`.  Scores are modelled as rationals; the embedding provider,
vector store and language detector are external collaborators and are
modelled as oracle functions, with their documented contracts taken as
hypotheses where a claim needs them.
-/

namespace PatentSearch

/-- A hit returned by the vector store for one keyword query
(`SearchResult` in `indexer.py`).  Metadata is an opaque key/value list. -/
structure SearchResult where
  text : String
  score : ℚ
  language : String
  metadata : List (String × String)
deriving DecidableEq, Repr

/-- One merged result (`SearchResultItem` in `schemas.py`).  The
human-readable `explanation` string is a log artefact and is not modelled. -/
structure SearchResultItem where
  text : String
  similarity : ℚ
  language : String
  metadata : List (String × String)
deriving DecidableEq, Repr

/-- The per-text accumulator built by `_merge_keyword_results`
(the value of the `combined_scores` dict). -/
structure Accum where
  base_score : ℚ
  keyword_matches : List String
  language : String
  metadata : List (String × String)
deriving DecidableEq, Repr

/-- `KEYWORD_BONUS` constant from `patent_service.py`. -/
def KEYWORD_BONUS : ℚ := 0.6

/-- Add a keyword to the `keyword_matches` set (Python set `add`):
a no-op when already present, otherwise appended. -/
def insertKw (kw : String) (l : List String) : List String :=
  if kw ∈ l then l else l ++ [kw]

/-- One iteration of the inner loop of `_merge_keyword_results`:
record hit `r` of keyword `kw` into the insertion-ordered accumulator map.
A new text is appended (Python dict insertion order); an existing text has
its entry updated in place (`max` of scores, keyword added to the set),
keeping language and metadata from the first sighting. -/
def addHit (kw : String) (r : SearchResult) :
    List (String × Accum) → List (String × Accum)
  | [] => [(r.text, ⟨r.score, [kw], r.language, r.metadata⟩)]
  | (t, a) :: rest =>
    if t = r.text then
      (t, ⟨max a.base_score r.score, insertKw kw a.keyword_matches,
           a.language, a.metadata⟩) :: rest
    else
      (t, a) :: addHit kw r rest

/-- Inner loop of `_merge_keyword_results` over the hit list of one keyword. -/
def processHits (kw : String) (rs : List SearchResult)
    (acc : List (String × Accum)) : List (String × Accum) :=
  match rs with
  | [] => acc
  | r :: rest => processHits kw rest (addHit kw r acc)

/-- Outer loop of `_merge_keyword_results` over the `keyword_results`
dict, represented as an insertion-ordered association list. -/
def combineScoresAux (krs : List (String × List SearchResult))
    (acc : List (String × Accum)) : List (String × Accum) :=
  match krs with
  | [] => acc
  | (kw, rs) :: rest => combineScoresAux rest (processHits kw rs acc)

/-- The fully built `combined_scores` map of `_merge_keyword_results`. -/
def combineScores (krs : List (String × List SearchResult)) :
    List (String × Accum) :=
  combineScoresAux krs []

/-- Final score formula of `_merge_keyword_results`:
`min(1.0, base_score + KEYWORD_BONUS * (num_matches - 1))`. -/
def finalScore (a : Accum) : ℚ :=
  min 1 (a.base_score + KEYWORD_BONUS * ((a.keyword_matches.length : ℚ) - 1))

/-- Build one `SearchResultItem` from an accumulator entry. -/
def toItem (p : String × Accum) : SearchResultItem :=
  ⟨p.1, finalScore p.2, p.2.language, p.2.metadata⟩

/-- Stable insertion step for the descending sort: the new element is
placed before the first element whose similarity is not larger. -/
def insertDesc (x : SearchResultItem) :
    List SearchResultItem → List SearchResultItem
  | [] => [x]
  | y :: ys =>
    if y.similarity ≤ x.similarity then x :: y :: ys
    else y :: insertDesc x ys

/-- Stable sort by similarity descending, modelling Python
`list.sort(key=lambda x: x.similarity, reverse=True)` (Timsort is stable;
a stable sort by one key has a unique result, so stable insertion sort
gives the same list). -/
def sortBySimilarityDesc (l : List SearchResultItem) : List SearchResultItem :=
  l.foldr insertDesc []

/-- The full merged and ranked list built by `_merge_keyword_results`
before the final truncation (`final_results` after the sort). -/
def mergedFull (krs : List (String × List SearchResult)) :
    List SearchResultItem :=
  sortBySimilarityDesc ((combineScores krs).map toItem)

/-- `_merge_keyword_results`: merge the per-keyword hit lists, rank, and
truncate to `max_results`. -/
def merge_keyword_results (krs : List (String × List SearchResult))
    (max_results : ℕ) : List SearchResultItem :=
  (mergedFull krs).take max_results

/-- `SearchRequest` dataclass from `schemas.py`. -/
structure SearchRequest where
  keywords : List String
  threshold : ℚ
  max_results : ℤ
  language : Option String
deriving DecidableEq, Repr

/-- Constructor with the `__post_init__` validation of `SearchRequest`:
the three checks run in source order and the first failing one raises. -/
def mkSearchRequest (keywords : List String) (threshold : ℚ)
    (max_results : ℤ) (language : Option String) :
    Except String SearchRequest :=
  if keywords = [] then
    .error ("Keywords list cannot be empty")
  else if ¬ (0 ≤ threshold ∧ threshold ≤ 1) then
    .error ("Threshold must be between 0 and 1")
  else if max_results < 1 then
    .error ("max_results must be positive")
  else
    .ok ⟨keywords, threshold, max_results, language⟩

/-- Python dict assignment `d[k] = v` on an insertion-ordered association
list: an existing key keeps its position and has its value replaced, a new
key is appended. -/
def dictInsert (k : String) (v : α) :
    List (String × α) → List (String × α)
  | [] => [(k, v)]
  | (k2, v2) :: rest =>
    if k2 = k then (k2, v) :: rest else (k2, v2) :: dictInsert k v rest

/-- `PatentSearchService.search`: one vector-store query per keyword
(`_search_single_keyword`, whose embedding step is folded into the
`idxSearch` oracle: keyword, `top_k = max_results`, threshold), collected
into the `keyword_results` dict, then merged.  The response also carries
an inert `query_info` map, not modelled. -/
def search (idxSearch : String → ℕ → ℚ → List SearchResult)
    (req : SearchRequest) : List SearchResultItem :=
  let krs := req.keywords.foldl
    (fun d kw => dictInsert kw (idxSearch kw req.max_results.toNat req.threshold) d) []
  merge_keyword_results krs req.max_results.toNat

/-- A concrete hit, used in the example inputs below. -/
def exampleHit (t : String) (s : ℚ) : SearchResult := ⟨t, s, "en", []⟩

/-- Concrete two-keyword input: both keywords return document `D`. -/
def exampleKrs : List (String × List SearchResult) :=
  [("solar", [exampleHit ("D") (4/5)]), ("panel", [exampleHit ("D") (4/5)])]

/-- Concrete one-keyword input producing a final-score tie between two
texts whose insertion order is the reverse of lexical order. -/
def exampleTieKrs : List (String × List SearchResult) :=
  [("k", [exampleHit ("b") 1, exampleHit ("a") 1])]

/-- A concrete vector-store oracle: only the keyword `solar` has a hit. -/
def exampleIdx : String → ℕ → ℚ → List SearchResult :=
  fun kw _ _ => if kw = "solar" then [exampleHit ("D") (4/5)] else []

/-- A concrete validated one-keyword request. -/
def exampleReq : SearchRequest := ⟨["solar"], 7/10, 10, none⟩

/-! ### Specification-side quantities for the merge -/

/-- All hits across all keyword lists whose text is `t`, in processing
order. -/
def hitsFor (krs : List (String × List SearchResult)) (t : String) :
    List SearchResult :=
  ((krs.map Prod.snd).flatten).filter (fun r => r.text = t)

/-- The scores of all hits for text `t`. -/
def scoresFor (krs : List (String × List SearchResult)) (t : String) :
    List ℚ :=
  (hitsFor krs t).map SearchResult.score

/-- The keywords (in request order) whose hit list contains text `t`. -/
def kwsContaining (krs : List (String × List SearchResult)) (t : String) :
    List String :=
  (krs.filter (fun p => decide (∃ r ∈ p.2, r.text = t))).map Prod.fst

/-- The accumulator seeded for a first sighting of a text
(the dict-entry creation branch of `_merge_keyword_results`). -/
def seedAcc (kw : String) (r : SearchResult) : Accum :=
  ⟨r.score, [kw], r.language, r.metadata⟩

/-- The accumulator update for a repeated sighting of a text
(the else branch of `_merge_keyword_results`). -/
def bumpAcc (kw : String) (r : SearchResult) (a : Accum) : Accum :=
  ⟨max a.base_score r.score, insertKw kw a.keyword_matches,
   a.language, a.metadata⟩

/-- The effect of one hit on the accumulator stored for its own text. -/
def applyHit (kw : String) (r : SearchResult) :
    Option Accum → Option Accum
  | none => some (seedAcc kw r)
  | some a => some (bumpAcc kw r a)

/-- The effect of a run of hits (all for one text) on the accumulator
stored for that text. -/
def applyHits (kw : String) (hits : List SearchResult)
    (o : Option Accum) : Option Accum :=
  hits.foldl (fun o r => applyHit kw r o) o

/-- The accumulator that the merge loop ends up storing for text `t`:
each keyword contributes its hits for `t`, in order. -/
def accumFor (krs : List (String × List SearchResult)) (t : String) :
    Option Accum :=
  krs.foldl
    (fun o p => applyHits p.1 (p.2.filter (fun r => r.text = t)) o) none

/-- Lookup in the insertion-ordered accumulator map. -/
def lookupAcc (t : String) : List (String × Accum) → Option Accum
  | [] => none
  | (k, a) :: rest => if k = t then some a else lookupAcc t rest

/-- The merge-loop invariant for one text: the stored accumulator holds
the maximum hit score seen so far, the set of keywords (in request order)
that have produced the text, and the language and metadata of the first
sighting; absent texts have no entry. -/
def MergeInv (t : String) (pre : List (String × List SearchResult)) :
    Option Accum → Prop
  | none => hitsFor pre t = []
  | some a =>
      a.base_score ∈ scoresFor pre t ∧
      (∀ s ∈ scoresFor pre t, s ≤ a.base_score) ∧
      a.keyword_matches = kwsContaining pre t ∧
      ∀ h, (hitsFor pre t).head? = some h →
        a.language = h.language ∧ a.metadata = h.metadata

/-- Lexical (code-point) order on character lists, used to state the
tie-breaking rule the specification mandates. -/
def lexLe : List Char → List Char → Bool
  | [], _ => true
  | _ :: _, [] => false
  | a :: as, b :: bs =>
    if a = b then lexLe as bs else decide (a < b)

/-- Sortedness by final score descending with lexical order of text as
the secondary key, as the specification states it. -/
def SortedByScoreThenLex (l : List SearchResultItem) : Prop :=
  l.Pairwise (fun x y =>
    y.similarity < x.similarity ∨
      (y.similarity = x.similarity ∧ lexLe x.text.toList y.text.toList))

/-! ### Data manager (`data_manager.py`) -/

/-- A processed record as stored in the cache (`ProcessedText`). -/
structure ProcessedText where
  text : String
  embedding : List ℚ
  language : String
  metadata : List (String × String)
deriving DecidableEq, Repr

/-- `ProcessingConfig` from `data_manager.py`.  The cache path itself is
not modelled; whether a file exists at it enters as a boolean argument. -/
structure ProcessingConfig where
  use_cache : Bool
  force_reprocess : Bool
deriving DecidableEq, Repr

/-- The `should_use_cache` property:
`use_cache and not force_reprocess and cache_path.exists()`. -/
def should_use_cache (cfg : ProcessingConfig) (cacheExists : Bool) : Bool :=
  cfg.use_cache && !cfg.force_reprocess && cacheExists

/-- `_load_from_cache`: when the cache file exists, the pickle load either
returns the stored list or raises (`raw` models that outcome); when the
file is absent the method returns `None`. -/
def load_from_cache (cacheExists : Bool)
    (raw : Except String (List ProcessedText)) :
    Except String (Option (List ProcessedText)) :=
  if cacheExists then raw.map some else .ok none

/-- `load_or_process_data`: under `should_use_cache`, try the cache and
return it when it loaded as a non-empty list; on a load exception, or a
falsy load result, fall through to `_process_and_cache_data`, whose
returned record list is the `reprocessed` argument. -/
def load_or_process_data (cfg : ProcessingConfig) (cacheExists : Bool)
    (raw : Except String (List ProcessedText))
    (reprocessed : List ProcessedText) : List ProcessedText :=
  if should_use_cache cfg cacheExists then
    match load_from_cache cacheExists raw with
    | .ok (some ts) => if ts.isEmpty then reprocessed else ts
    | .ok none => reprocessed
    | .error _ => reprocessed
  else
    reprocessed

/-- Observable outcome of one `append_to_cache` call: the returned or
raised value, the cache contents after the call (`none` = no cache file),
and whether the cache lock was taken and whether it is still held at
exit. -/
structure AppendOutcome where
  result : Except String Unit
  cache : Option (List ProcessedText)
  lockAcquired : Bool
  lockHeldAtExit : Bool
deriving Repr

/-- `append_to_cache`: early return when `use_cache` is false; otherwise,
under the cache lock, load the existing cache (`or []` turns an absent or
empty cache into `[]`), concatenate, and save.  A load exception
(`loadFailure`) is logged and re-raised without any save; the `with`
statement releases the lock on both the normal and the raising path.  The
save (`pickle.dump`) is modelled as succeeding. -/
def append_to_cache (use_cache : Bool)
    (cache : Option (List ProcessedText)) (loadFailure : Option String)
    (new : List ProcessedText) : AppendOutcome :=
  if use_cache = false then
    ⟨.ok (), cache, false, false⟩
  else
    match loadFailure with
    | some e => ⟨.error e, cache, true, false⟩
    | none =>
      let existing := cache.getD []
      ⟨.ok (), some (existing ++ new), true, false⟩

end PatentSearch

namespace TextChallenge

/-! ### Text processor (`text_challenge/core/processor.py`) -/

/-- Whitespace as used by Python `str.split()` and `str.strip()`
(ASCII whitespace; non-ASCII space characters are not distinguished
by this model). -/
def pyIsSpace (c : Char) : Bool :=
  c = ' ' || c = '\t' || c = '\n' || c = '\r' || c = '\x0b' || c = '\x0c'

/-- ASCII word characters of the regex class `\w`; characters at or above
U+0080 are handled by the explicit range in `keepChar`. -/
def isWordChar (c : Char) : Bool :=
  c.isAlphanum || c = '_'

/-- A character survives `re.sub(r"[^\w\s\u0080-￿]", " ", text)`
when it is a word character, whitespace, or in the preserved range. -/
def keepChar (c : Char) : Bool :=
  isWordChar c || pyIsSpace c || (0x80 ≤ c.toNat && c.toNat ≤ 0xffff)

/-- Python `" ".join(text.split())`: split on whitespace runs, drop empty
fields, rejoin with single spaces. -/
def normSpaces (s : List Char) : List Char :=
  List.intercalate [' '] ((s.splitOnP pyIsSpace).filter (· ≠ []))

/-- Python `text.strip()`. -/
def pyStrip (s : String) : List Char :=
  ((s.toList.dropWhile pyIsSpace).reverse.dropWhile pyIsSpace).reverse

/-- `TextProcessor.clean_text`: normalize whitespace, replace the removed
character class by spaces, normalize again, strip. -/
def clean_text (s : String) : String :=
  let t1 := normSpaces s.toList
  let t2 := t1.map (fun c => if keepChar c then c else ' ')
  let t3 := normSpaces t2
  String.mk ((t3.dropWhile pyIsSpace).reverse.dropWhile pyIsSpace).reverse

/-- Metadata attached by `process_text` (its dict keys). -/
structure TCMeta where
  original_length : ℕ
  processed_length : ℕ
  language : String
deriving DecidableEq, Repr

/-- `ProcessedText` of `processor.py` (embedding optional). -/
structure TCProcessedText where
  text : String
  language : String
  embedding : Option (List ℚ)
  metadata : TCMeta
deriving DecidableEq, Repr

/-- `TextProcessor.process_text`: reject when the stripped raw text is
shorter than `min_text_length`; clean; reject when the cleaned text is
empty; detect language and optionally embed (both external, passed as
oracle functions); assemble record and metadata. -/
def process_text (detect : String → String) (embed : String → List ℚ)
    (minLen : ℕ) (genEmbedding : Bool) (text : String) :
    Option TCProcessedText :=
  if (pyStrip text).length < minLen then none
  else
    let cleaned := clean_text text
    if cleaned = "" then none
    else
      let language := detect cleaned
      let embedding := if genEmbedding then some (embed cleaned) else none
      some ⟨cleaned, language, embedding,
        ⟨text.length, cleaned.length, language⟩⟩

/-- Second phase of one `batch_process` chunk: attach batch-computed
embeddings (`model.encode` on the list preserves order, so each record
gets the embedding of its own cleaned text). -/
def attachEmbeddings (embed : String → List ℚ) :
    List TCProcessedText → List TCProcessedText :=
  List.map (fun p => { p with embedding := some (embed p.text) })

/-- `TextProcessor.batch_process`: walk the input in chunks of
`batch_size`, apply `process_text` without embedding to each entry,
drop rejected entries, then batch-attach embeddings when requested.
Python raises on a zero step; callers always use a positive
`batch_size`, and the zero case is given the empty output. -/
def batch_process (detect : String → String) (embed : String → List ℚ)
    (minLen batchSize : ℕ) (genEmbeddings : Bool) :
    List String → List TCProcessedText
  | [] => []
  | t :: ts =>
    if _h : batchSize = 0 then []
    else
      let batch := (t :: ts).take batchSize
      let processed := batch.filterMap (process_text detect embed minLen false)
      let processed :=
        if genEmbeddings && !processed.isEmpty then
          attachEmbeddings embed processed
        else processed
      processed ++
        batch_process detect embed minLen batchSize genEmbeddings
          ((t :: ts).drop batchSize)
  termination_by ts => ts.length
  decreasing_by
    simp only [List.length_drop, List.length_cons]
    omega

end TextChallenge

namespace PatentSearch

/-! ### Lemmas about the accumulator map -/

theorem mem_insertKw (kw k : String) (l : List String) :
    k ∈ insertKw kw l ↔ k ∈ l ∨ k = kw := by
  unfold insertKw
  by_cases h : kw ∈ l
  · simp only [if_pos h]
    exact ⟨Or.inl, fun hk => hk.elim id (fun hk => hk ▸ h)⟩
  · simp [if_neg h]

theorem insertKw_of_mem {kw : String} {l : List String} (h : kw ∈ l) :
    insertKw kw l = l := by
  simp [insertKw, h]

theorem insertKw_of_not_mem {kw : String} {l : List String} (h : kw ∉ l) :
    insertKw kw l = l ++ [kw] := by
  simp [insertKw, h]

theorem insertKw_idem (kw : String) (l : List String) :
    insertKw kw (insertKw kw l) = insertKw kw l :=
  insertKw_of_mem ((mem_insertKw kw kw l).mpr (Or.inr rfl))

theorem lookupAcc_addHit (kw : String) (r : SearchResult) (t : String)
    (acc : List (String × Accum)) :
    lookupAcc t (addHit kw r acc) =
      if t = r.text then applyHit kw r (lookupAcc t acc)
      else lookupAcc t acc := by
  induction acc with
  | nil =>
    by_cases h : t = r.text
    · subst h
      simp [addHit, lookupAcc, applyHit, seedAcc]
    · have h2 : ¬ r.text = t := fun hc => h hc.symm
      simp [addHit, lookupAcc, h, h2]
  | cons p rest ih =>
    obtain ⟨k, a⟩ := p
    by_cases hk : k = r.text
    · subst hk
      by_cases ht : t = r.text
      · subst ht
        simp [addHit, lookupAcc, applyHit, bumpAcc]
      · have ht3 : ¬ r.text = t := fun hc => ht hc.symm
        simp [addHit, lookupAcc, ht, ht3]
    · by_cases hkt : k = t
      · subst hkt
        simp [addHit, lookupAcc, hk]
      · simp [addHit, lookupAcc, hk, hkt, ih]

theorem lookupAcc_processHits (kw : String) (rs : List SearchResult)
    (t : String) (acc : List (String × Accum)) :
    lookupAcc t (processHits kw rs acc) =
      applyHits kw (rs.filter (fun r => r.text = t)) (lookupAcc t acc) := by
  induction rs generalizing acc with
  | nil => simp [processHits, applyHits]
  | cons r rest ih =>
    by_cases h : r.text = t
    · simp [processHits, ih, lookupAcc_addHit, h, applyHits, List.filter_cons]
    · have h2 : ¬ t = r.text := fun hc => h hc.symm
      simp [processHits, ih, lookupAcc_addHit, h, h2, applyHits,
        List.filter_cons]

theorem lookupAcc_combineScoresAux (krs : List (String × List SearchResult))
    (t : String) (acc : List (String × Accum)) :
    lookupAcc t (combineScoresAux krs acc) =
      krs.foldl
        (fun o p => applyHits p.1 (p.2.filter (fun r => r.text = t)) o)
        (lookupAcc t acc) := by
  induction krs generalizing acc with
  | nil => simp [combineScoresAux]
  | cons p rest ih =>
    obtain ⟨kw, rs⟩ := p
    simp [combineScoresAux, ih, lookupAcc_processHits]

theorem lookupAcc_combineScores (krs : List (String × List SearchResult))
    (t : String) :
    lookupAcc t (combineScores krs) = accumFor krs t := by
  simpa [combineScores, lookupAcc] using
    lookupAcc_combineScoresAux krs t []

theorem keys_addHit (kw : String) (r : SearchResult)
    (acc : List (String × Accum)) :
    (addHit kw r acc).map Prod.fst = acc.map Prod.fst ∨
      ((addHit kw r acc).map Prod.fst = acc.map Prod.fst ++ [r.text] ∧
        r.text ∉ acc.map Prod.fst) := by
  induction acc with
  | nil => simp [addHit]
  | cons p rest ih =>
    obtain ⟨k, a⟩ := p
    by_cases hk : k = r.text
    · left
      simp [addHit, hk]
    · rcases ih with ih | ⟨ih, hmem⟩
      · left
        simp [addHit, hk, ih]
      · right
        have hne : ¬ r.text = k := fun hc => hk hc.symm
        refine ⟨by simp [addHit, hk, ih], ?_⟩
        simp [hmem, hne]

theorem keys_addHit_subset (kw : String) (r : SearchResult)
    (acc : List (String × Accum)) :
    (addHit kw r acc).map Prod.fst ⊆ acc.map Prod.fst ++ [r.text] := by
  rcases keys_addHit kw r acc with h | ⟨h, _⟩
  · rw [h]
    exact List.subset_append_left _ _
  · rw [h]
    exact List.Subset.refl _

theorem keys_addHit_nodup (kw : String) (r : SearchResult)
    (acc : List (String × Accum))
    (h : (acc.map Prod.fst).Nodup) :
    ((addHit kw r acc).map Prod.fst).Nodup := by
  rcases keys_addHit kw r acc with hk | ⟨hk, hmem⟩
  · rwa [hk]
  · rw [hk]
    simp [List.nodup_append, h, hmem]

theorem keys_processHits_subset (kw : String) (rs : List SearchResult)
    (acc : List (String × Accum)) :
    (processHits kw rs acc).map Prod.fst ⊆
      acc.map Prod.fst ++ rs.map SearchResult.text := by
  induction rs generalizing acc with
  | nil => simp [processHits]
  | cons r rest ih =>
    intro x hx
    have := ih (addHit kw r acc) hx
    rw [List.mem_append] at this
    rcases this with h | h
    · have := keys_addHit_subset kw r acc h
      rw [List.mem_append] at this
      rcases this with h | h
      · exact List.mem_append_left _ h
      · refine List.mem_append_right _ ?_
        simp at h
        simp [h]
    · refine List.mem_append_right _ ?_
      simp [h]

theorem keys_processHits_nodup (kw : String) (rs : List SearchResult)
    (acc : List (String × Accum))
    (h : (acc.map Prod.fst).Nodup) :
    ((processHits kw rs acc).map Prod.fst).Nodup := by
  induction rs generalizing acc with
  | nil => simpa [processHits]
  | cons r rest ih =>
    exact ih (addHit kw r acc) (keys_addHit_nodup kw r acc h)

theorem keys_combineScoresAux_nodup
    (krs : List (String × List SearchResult))
    (acc : List (String × Accum))
    (h : (acc.map Prod.fst).Nodup) :
    ((combineScoresAux krs acc).map Prod.fst).Nodup := by
  induction krs generalizing acc with
  | nil => simpa [combineScoresAux]
  | cons p rest ih =>
    exact ih (processHits p.1 p.2 acc) (keys_processHits_nodup _ _ _ h)

theorem keys_combineScores_nodup (krs : List (String × List SearchResult)) :
    ((combineScores krs).map Prod.fst).Nodup :=
  keys_combineScoresAux_nodup krs [] (by simp)

theorem keys_combineScoresAux_origin
    (krs : List (String × List SearchResult))
    (acc : List (String × Accum)) (t : String)
    (h : t ∈ (combineScoresAux krs acc).map Prod.fst) :
    t ∈ acc.map Prod.fst ∨ ∃ p ∈ krs, ∃ r ∈ p.2, r.text = t := by
  induction krs generalizing acc with
  | nil =>
    left
    simpa [combineScoresAux] using h
  | cons p rest ih =>
    rcases ih (processHits p.1 p.2 acc) (by simpa [combineScoresAux] using h)
      with hmem | ⟨q, hq, r, hr, hrt⟩
    · have := keys_processHits_subset p.1 p.2 acc hmem
      rw [List.mem_append] at this
      rcases this with h1 | h1
      · exact Or.inl h1
      · rcases List.mem_map.mp h1 with ⟨r, hr, hrt⟩
        exact Or.inr ⟨p, by simp, r, hr, hrt⟩
    · exact Or.inr ⟨q, by simp [hq], r, hr, hrt⟩

theorem lookupAcc_isSome_iff_mem (t : String)
    (acc : List (String × Accum)) :
    (lookupAcc t acc).isSome ↔ t ∈ acc.map Prod.fst := by
  induction acc with
  | nil => simp [lookupAcc]
  | cons p rest ih =>
    obtain ⟨k, a⟩ := p
    by_cases hk : k = t
    · subst hk
      simp [lookupAcc]
    · have hk2 : ¬ t = k := fun hc => hk hc.symm
      simp [lookupAcc, hk, hk2, ih]

theorem lookupAcc_eq_some_of_mem {t : String} {a : Accum}
    {acc : List (String × Accum)}
    (hnd : (acc.map Prod.fst).Nodup) (h : (t, a) ∈ acc) :
    lookupAcc t acc = some a := by
  induction acc with
  | nil => simp at h
  | cons p rest ih =>
    obtain ⟨k, b⟩ := p
    rw [List.map_cons, List.nodup_cons] at hnd
    rcases List.mem_cons.mp h with heq | hmem
    · cases heq
      simp [lookupAcc]
    · have hk : ¬ k = t := by
        rintro rfl
        exact hnd.1 (List.mem_map.mpr ⟨(k, a), hmem, rfl⟩)
      rw [lookupAcc, if_neg hk]
      exact ih hnd.2 hmem

/-! ### Characterization of a run of hits on one accumulator -/

theorem applyHits_some (kw : String) (hits : List SearchResult) (a : Accum) :
    applyHits kw hits (some a) =
      some ⟨(hits.map SearchResult.score).foldl max a.base_score,
        if hits = [] then a.keyword_matches
        else insertKw kw a.keyword_matches,
        a.language, a.metadata⟩ := by
  induction hits generalizing a with
  | nil => simp [applyHits]
  | cons h hs ih =>
    have step : applyHits kw (h :: hs) (some a) =
        applyHits kw hs (some (bumpAcc kw h a)) := by
      simp [applyHits, applyHit]
    rw [step, ih]
    by_cases hhs : hs = []
    · subst hhs
      simp [bumpAcc]
    · simp [hhs, bumpAcc, insertKw_idem]

theorem applyHits_none (kw : String) (h : SearchResult)
    (hs : List SearchResult) :
    applyHits kw (h :: hs) none =
      some ⟨(hs.map SearchResult.score).foldl max h.score, [kw],
        h.language, h.metadata⟩ := by
  have step : applyHits kw (h :: hs) none =
      applyHits kw hs (some (seedAcc kw h)) := by
    simp [applyHits, applyHit]
  rw [step, applyHits_some]
  by_cases hhs : hs = []
  · subst hhs
    simp [seedAcc]
  · simp [hhs, seedAcc, insertKw_of_mem (by simp : kw ∈ [kw])]

theorem foldl_max_spec (l : List ℚ) (a : ℚ) :
    (l.foldl max a = a ∨ l.foldl max a ∈ l) ∧
      a ≤ l.foldl max a ∧ ∀ x ∈ l, x ≤ l.foldl max a := by
  induction l generalizing a with
  | nil => simp
  | cons b bs ih =>
    obtain ⟨hmem, hle, hub⟩ := ih (max a b)
    refine ⟨?_, ?_, ?_⟩
    · rcases hmem with h | h
      · rcases max_choice a b with hm | hm
        · rw [List.foldl_cons, h, hm]
          exact Or.inl rfl
        · rw [List.foldl_cons, h, hm]
          exact Or.inr (by simp)
      · exact Or.inr (by simp [h])
    · exact le_trans (le_max_left a b) hle
    · intro x hx
      rcases List.mem_cons.mp hx with rfl | hx
      · exact le_trans (le_max_right a x) hle
      · exact hub x hx

/-! ### Append lemmas for the specification-side quantities -/

theorem hitsFor_append (l1 l2 : List (String × List SearchResult))
    (t : String) :
    hitsFor (l1 ++ l2) t = hitsFor l1 t ++ hitsFor l2 t := by
  simp [hitsFor, List.filter_append]

theorem hitsFor_single (kw : String) (rs : List SearchResult) (t : String) :
    hitsFor [(kw, rs)] t = rs.filter (fun r => r.text = t) := by
  simp [hitsFor]

theorem scoresFor_append (l1 l2 : List (String × List SearchResult))
    (t : String) :
    scoresFor (l1 ++ l2) t = scoresFor l1 t ++ scoresFor l2 t := by
  simp [scoresFor, hitsFor_append]

theorem kwsContaining_append (l1 l2 : List (String × List SearchResult))
    (t : String) :
    kwsContaining (l1 ++ l2) t = kwsContaining l1 t ++ kwsContaining l2 t := by
  simp [kwsContaining, List.filter_append]

theorem kwsContaining_single (kw : String) (rs : List SearchResult)
    (t : String) :
    kwsContaining [(kw, rs)] t =
      if ∃ r ∈ rs, r.text = t then [kw] else [] := by
  by_cases h : ∃ r ∈ rs, r.text = t <;>
    simp [kwsContaining, List.filter, h]

theorem kwsContaining_subset_keys
    (l : List (String × List SearchResult)) (t : String) :
    kwsContaining l t ⊆ l.map Prod.fst := by
  intro x hx
  rcases List.mem_map.mp hx with ⟨p, hp, rfl⟩
  exact List.mem_map.mpr ⟨p, List.mem_of_mem_filter hp, rfl⟩

theorem kwsContaining_eq_nil_of_hitsFor_nil
    {l : List (String × List SearchResult)} {t : String}
    (h : hitsFor l t = []) : kwsContaining l t = [] := by
  rw [hitsFor, List.filter_eq_nil_iff] at h
  rw [kwsContaining, List.filter_eq_nil_iff.mpr, List.map_nil]
  intro p hp
  simp only [decide_eq_true_eq]
  rintro ⟨r, hr, hrt⟩
  exact h r (by
    simp only [List.mem_flatten]
    exact ⟨p.2, List.mem_map.mpr ⟨p, hp, rfl⟩, hr⟩) (by simp [hrt])

theorem filter_eq_nil_iff_no_hit (rs : List SearchResult) (t : String) :
    rs.filter (fun r => r.text = t) = [] ↔ ¬ ∃ r ∈ rs, r.text = t := by
  rw [List.filter_eq_nil_iff]
  push_neg
  constructor
  · intro h r hr
    have := h r hr
    simpa using this
  · intro h r hr
    simpa using h r hr

/-! ### The merge-loop invariant -/

theorem mergeInv_step (t : String)
    (pre : List (String × List SearchResult)) (kw : String)
    (rs : List SearchResult) (o : Option Accum)
    (hkw : kw ∉ pre.map Prod.fst) (hinv : MergeInv t pre o) :
    MergeInv t (pre ++ [(kw, rs)])
      (applyHits kw (rs.filter (fun r => r.text = t)) o) := by
  have hhits : hitsFor (pre ++ [(kw, rs)]) t =
      hitsFor pre t ++ rs.filter (fun r => r.text = t) := by
    rw [hitsFor_append, hitsFor_single]
  have hkws : kwsContaining (pre ++ [(kw, rs)]) t =
      kwsContaining pre t ++ (if ∃ r ∈ rs, r.text = t then [kw] else []) := by
    rw [kwsContaining_append, kwsContaining_single]
  cases o with
  | none =>
    have hnil : hitsFor pre t = [] := hinv
    have hkwsnil : kwsContaining pre t = [] :=
      kwsContaining_eq_nil_of_hitsFor_nil hnil
    cases hf : rs.filter (fun r => r.text = t) with
    | nil =>
      show MergeInv t _ none
      simp [MergeInv, hhits, hnil, hf]
    | cons h hs =>
      rw [applyHits_none]
      have hex : ∃ r ∈ rs, r.text = t := by
        by_contra hc
        rw [← filter_eq_nil_iff_no_hit rs t] at hc
        simp [hc] at hf
      obtain ⟨hm, hle, hub⟩ := foldl_max_spec (hs.map SearchResult.score) h.score
      refine ⟨?_, ?_, ?_, ?_⟩
      · rcases hm with hm | hm
        · simp [scoresFor, hhits, hnil, hf, hm]
        · simp only [scoresFor, hhits, hnil, hf, List.nil_append, List.map_cons]
          exact List.mem_cons_of_mem _ hm
      · intro s hs2
        simp only [scoresFor, hhits, hnil, hf, List.nil_append, List.map_cons] at hs2
        rcases List.mem_cons.mp hs2 with rfl | hs2
        · exact hle
        · exact hub _ hs2
      · simp [hkws, hkwsnil, hex]
      · intro h2 hh2
        simp only [hhits, hnil, hf, List.nil_append, List.head?_cons,
          Option.some.injEq] at hh2
        subst hh2
        exact ⟨rfl, rfl⟩
  | some a =>
    obtain ⟨hmem, hub, hkms, hfirst⟩ := hinv
    have hpre_ne : hitsFor pre t ≠ [] := by
      intro hc
      simp [scoresFor, hc] at hmem
    rw [applyHits_some]
    obtain ⟨hm2, hle2, hub2⟩ :=
      foldl_max_spec ((rs.filter (fun r => r.text = t)).map SearchResult.score)
        a.base_score
    refine ⟨?_, ?_, ?_, ?_⟩
    · rcases hm2 with hm2 | hm2
      · rw [scoresFor, hhits, List.map_append, hm2]
        exact List.mem_append_left _ hmem
      · rw [scoresFor, hhits, List.map_append]
        exact List.mem_append_right _ hm2
    · intro s hs2
      rw [scoresFor, hhits, List.map_append, List.mem_append] at hs2
      rcases hs2 with hs2 | hs2
      · exact le_trans (hub s hs2) hle2
      · exact hub2 _ hs2
    · by_cases hf : rs.filter (fun r => r.text = t) = []
      · have hex : ¬ ∃ r ∈ rs, r.text = t :=
          (filter_eq_nil_iff_no_hit rs t).mp hf
        simp [hf, hkws, hex, hkms]
      · have hex : ∃ r ∈ rs, r.text = t := by
          by_contra hc
          exact hf ((filter_eq_nil_iff_no_hit rs t).mpr hc)
        have hkw2 : kw ∉ a.keyword_matches := by
          rw [hkms]
          intro hc
          exact hkw (kwsContaining_subset_keys pre t hc)
        simp only [hf, if_neg hf, hkws, hex, if_pos hex]
        rw [insertKw_of_not_mem hkw2, hkms]
        simp
    · intro h2 hh2
      rw [hhits] at hh2
      cases hp : hitsFor pre t with
      | nil => exact absurd hp hpre_ne
      | cons h3 hs3 =>
        rw [hp, List.cons_append, List.head?_cons, Option.some.injEq] at hh2
        subst hh2
        exact hfirst h3 (by rw [hp, List.head?_cons])

theorem mergeInv_accumFor (t : String)
    (krs : List (String × List SearchResult))
    (hnd : (krs.map Prod.fst).Nodup) :
    MergeInv t krs (accumFor krs t) := by
  induction krs using List.reverseRecOn with
  | nil => simp [MergeInv, accumFor, hitsFor]
  | append_singleton pre p ih =>
    obtain ⟨kw, rs⟩ := p
    rw [List.map_append, List.nodup_append] at hnd
    obtain ⟨hnd1, _, hdisj⟩ := hnd
    have hkw : kw ∉ pre.map Prod.fst := by
      intro hc
      exact hdisj hc (by simp)
    have hstep := mergeInv_step t pre kw rs (accumFor pre t) hkw (ih hnd1)
    have : accumFor (pre ++ [(kw, rs)]) t =
        applyHits kw (rs.filter (fun r => r.text = t)) (accumFor pre t) := by
      simp [accumFor, List.foldl_append]
    rwa [this]

/-! ### The stable descending sort -/

theorem mem_insertDesc (z x : SearchResultItem)
    (l : List SearchResultItem) :
    z ∈ insertDesc x l ↔ z = x ∨ z ∈ l := by
  induction l with
  | nil => simp [insertDesc]
  | cons y ys ih =>
    by_cases hc : y.similarity ≤ x.similarity
    · rw [insertDesc, if_pos hc]
      simp
    · rw [insertDesc, if_neg hc]
      simp [ih]
      tauto

theorem insertDesc_perm (x : SearchResultItem) (l : List SearchResultItem) :
    List.Perm (insertDesc x l) (x :: l) := by
  induction l with
  | nil => rfl
  | cons y ys ih =>
    by_cases hc : y.similarity ≤ x.similarity
    · rw [insertDesc, if_pos hc]
    · rw [insertDesc, if_neg hc]
      exact List.Perm.trans (List.Perm.cons y ih) (List.Perm.swap x y ys)

theorem sortDesc_perm (l : List SearchResultItem) :
    List.Perm (sortBySimilarityDesc l) l := by
  induction l with
  | nil => rfl
  | cons x xs ih =>
    exact List.Perm.trans (insertDesc_perm x (sortBySimilarityDesc xs))
      (List.Perm.cons x ih)

theorem mem_sortDesc (z : SearchResultItem) (l : List SearchResultItem) :
    z ∈ sortBySimilarityDesc l ↔ z ∈ l :=
  (sortDesc_perm l).mem_iff

theorem pairwise_insertDesc (x : SearchResultItem)
    (l : List SearchResultItem)
    (h : l.Pairwise (fun a b => b.similarity ≤ a.similarity)) :
    (insertDesc x l).Pairwise (fun a b => b.similarity ≤ a.similarity) := by
  induction l with
  | nil => simp [insertDesc]
  | cons y ys ih =>
    rw [List.pairwise_cons] at h
    obtain ⟨hy, hys⟩ := h
    by_cases hc : y.similarity ≤ x.similarity
    · rw [insertDesc, if_pos hc]
      refine List.Pairwise.cons ?_ (List.Pairwise.cons hy hys)
      intro z hz
      rcases List.mem_cons.mp hz with rfl | hz
      · exact hc
      · exact le_trans (hy z hz) hc
    · rw [insertDesc, if_neg hc]
      refine List.Pairwise.cons ?_ (ih hys)
      intro z hz
      rcases (mem_insertDesc z x ys).mp hz with rfl | hz
      · exact le_of_not_le hc
      · exact hy z hz

theorem sortDesc_pairwise (l : List SearchResultItem) :
    (sortBySimilarityDesc l).Pairwise
      (fun a b => b.similarity ≤ a.similarity) := by
  induction l with
  | nil => exact List.Pairwise.nil
  | cons x xs ih => exact pairwise_insertDesc x (sortBySimilarityDesc xs) ih

theorem sortDesc_eq_of_sorted (l : List SearchResultItem)
    (h : l.Pairwise (fun a b => b.similarity ≤ a.similarity)) :
    sortBySimilarityDesc l = l := by
  induction l with
  | nil => rfl
  | cons x xs ih =>
    rw [List.pairwise_cons] at h
    have hfold : sortBySimilarityDesc (x :: xs) =
        insertDesc x (sortBySimilarityDesc xs) := rfl
    rw [hfold, ih h.2]
    cases xs with
    | nil => rfl
    | cons y ys => rw [insertDesc, if_pos (h.1 y (by simp))]

theorem filter_insertDesc (x : SearchResultItem)
    (t : List SearchResultItem) (q : ℚ)
    (hsorted : t.Pairwise (fun a b => b.similarity ≤ a.similarity)) :
    (insertDesc x t).filter (fun it => it.similarity = q) =
      if x.similarity = q then
        x :: t.filter (fun it => it.similarity = q)
      else t.filter (fun it => it.similarity = q) := by
  induction t with
  | nil =>
    by_cases hx : x.similarity = q <;> simp [insertDesc, hx]
  | cons y ys ih =>
    rw [List.pairwise_cons] at hsorted
    obtain ⟨hy, hys⟩ := hsorted
    by_cases hc : y.similarity ≤ x.similarity
    · rw [insertDesc, if_pos hc]
      by_cases hx : x.similarity = q <;> simp [List.filter_cons, hx]
    · rw [insertDesc, if_neg hc]
      push_neg at hc
      by_cases hx : x.similarity = q
      · have hyq : ¬ y.similarity = q := by
          intro h2
          exact absurd (h2.trans hx.symm) (ne_of_gt hc)
        simp [List.filter_cons, hx, hyq, ih hys]
      · simp [List.filter_cons, hx, ih hys]

theorem filter_sortDesc (l : List SearchResultItem) (q : ℚ) :
    (sortBySimilarityDesc l).filter (fun it => it.similarity = q) =
      l.filter (fun it => it.similarity = q) := by
  induction l with
  | nil => rfl
  | cons x xs ih =>
    have hfold : sortBySimilarityDesc (x :: xs) =
        insertDesc x (sortBySimilarityDesc xs) := rfl
    rw [hfold, filter_insertDesc x _ q (sortDesc_pairwise xs)]
    by_cases hx : x.similarity = q
    · rw [if_pos hx, ih, List.filter_cons, if_pos (by simp [hx])]
    · rw [if_neg hx, ih, List.filter_cons, if_neg (by simp [hx])]

theorem sorted_stable_unique :
    ∀ l1 l2 : List SearchResultItem,
    l1.Pairwise (fun a b => b.similarity ≤ a.similarity) →
    l2.Pairwise (fun a b => b.similarity ≤ a.similarity) →
    (∀ q : ℚ, l1.filter (fun it => it.similarity = q) =
      l2.filter (fun it => it.similarity = q)) →
    l1 = l2 := by
  intro l1
  induction l1 with
  | nil =>
    intro l2 _ _ hfilt
    cases l2 with
    | nil => rfl
    | cons y ys =>
      have h := hfilt y.similarity
      rw [List.filter_cons, if_pos (by simp)] at h
      simp at h
  | cons x xs ih =>
    intro l2 hs1 hs2 hfilt
    cases l2 with
    | nil =>
      have h := hfilt x.similarity
      rw [List.filter_cons, if_pos (by simp)] at h
      simp at h
    | cons y ys =>
      rw [List.pairwise_cons] at hs1 hs2
      obtain ⟨hx1, hxs⟩ := hs1
      obtain ⟨hy1, hys⟩ := hs2
      have hsim : x.similarity = y.similarity := by
        by_contra hne
        rcases lt_or_gt_of_ne hne with hlt | hgt
        · have h := hfilt y.similarity
          have hempty : (x :: xs).filter
              (fun it => it.similarity = y.similarity) = [] := by
            rw [List.filter_eq_nil_iff]
            intro z hz
            rcases List.mem_cons.mp hz with rfl | hz2
            · simpa using ne_of_lt hlt
            · simpa using ne_of_lt (lt_of_le_of_lt (hx1 z hz2) hlt)
          rw [hempty, List.filter_cons, if_pos (by simp)] at h
          simp at h
        · have h := hfilt x.similarity
          have hempty : (y :: ys).filter
              (fun it => it.similarity = x.similarity) = [] := by
            rw [List.filter_eq_nil_iff]
            intro z hz
            rcases List.mem_cons.mp hz with rfl | hz2
            · simpa using ne_of_lt hgt
            · simpa using ne_of_lt (lt_of_le_of_lt (hy1 z hz2) hgt)
          rw [hempty, List.filter_cons, if_pos (by simp)] at h
          simp at h
      have hhead := hfilt x.similarity
      rw [List.filter_cons, List.filter_cons, if_pos (by simp),
        if_pos (by simp [hsim])] at hhead
      injection hhead with h1 h2
      subst h1
      have htails : xs = ys := by
        apply ih ys hxs hys
        intro q
        by_cases hq : q = x.similarity
        · subst hq
          exact h2
        · have h := hfilt q
          have hxq : ¬ x.similarity = q := fun hc => hq hc.symm
          rw [List.filter_cons, List.filter_cons, if_neg (by simp [hxq]),
            if_neg (by simp [hxq])] at h
          exact h
      rw [htails]

/-! ### From merged output items back to accumulator entries -/

theorem item_of_mem_merge (krs : List (String × List SearchResult))
    (m : ℕ) (item : SearchResultItem)
    (h : item ∈ merge_keyword_results krs m) :
    ∃ p ∈ combineScores krs, item = toItem p := by
  have h1 : item ∈ mergedFull krs :=
    List.take_subset m (mergedFull krs) h
  have h2 : item ∈ (combineScores krs).map toItem :=
    (mem_sortDesc item _).mp h1
  rcases List.mem_map.mp h2 with ⟨p, hp, rfl⟩
  exact ⟨p, hp, rfl⟩

theorem mergeInv_of_mem_combineScores
    {krs : List (String × List SearchResult)} {t : String} {a : Accum}
    (hnd : (krs.map Prod.fst).Nodup) (h : (t, a) ∈ combineScores krs) :
    MergeInv t krs (some a) := by
  have hl : lookupAcc t (combineScores krs) = some a :=
    lookupAcc_eq_some_of_mem (keys_combineScores_nodup krs) h
  have := mergeInv_accumFor t krs hnd
  rwa [← lookupAcc_combineScores krs t, hl] at this

theorem assoc_filter_key_length {α : Type} (l : List (String × α))
    (t : String) (hnd : (l.map Prod.fst).Nodup) :
    (l.filter (fun p => p.1 = t)).length =
      if t ∈ l.map Prod.fst then 1 else 0 := by
  induction l with
  | nil => simp
  | cons p rest ih =>
    rw [List.map_cons, List.nodup_cons] at hnd
    by_cases hp : p.1 = t
    · subst hp
      have : p.1 ∉ List.map Prod.fst rest := hnd.1
      rw [List.filter_cons, if_pos (by simp)]
      have hrest : (rest.filter (fun q => q.1 = p.1)).length = 0 := by
        rw [ih hnd.2, if_neg this]
      simp [hrest]
    · rw [List.filter_cons, if_neg (by simpa using hp), ih hnd.2]
      have hne : ¬ t = p.1 := fun hc => hp hc.symm
      rw [List.map_cons]
      by_cases hm : t ∈ List.map Prod.fst rest
      · rw [if_pos hm, if_pos (List.mem_cons_of_mem _ hm)]
      · have h2 : t ∉ p.1 :: List.map Prod.fst rest := by
          simp [List.mem_cons, hne, hm]
        rw [if_neg hm, if_neg h2]

/-! ### Claim theorems for the merge -/

/-- C1: every distinct matched text in the merged output receives
`finalScore = min(1.0, bestScore + 0.6 * (numMatches - 1))`, where
`bestScore` is the maximum per-keyword hit score for that text and
`numMatches` is the number of distinct keywords whose hit sets contain
it; in particular a single-keyword match receives zero bonus. -/
theorem merged_final_score_formula
    (krs : List (String × List SearchResult)) (m : ℕ)
    (item : SearchResultItem) (b : ℚ)
    (hnd : (krs.map Prod.fst).Nodup)
    (hitem : item ∈ merge_keyword_results krs m)
    (hmax : (scoresFor krs item.text).maximum = (b : WithBot ℚ)) :
    item.similarity =
      min 1 (b + KEYWORD_BONUS *
        (((kwsContaining krs item.text).length : ℚ) - 1)) ∧
    ((kwsContaining krs item.text).length = 1 →
      item.similarity = min 1 b) := by
  obtain ⟨⟨t, a⟩, hpmem, rfl⟩ := item_of_mem_merge krs m item hitem
  obtain ⟨hmem, hub, hkms, _⟩ := mergeInv_of_mem_combineScores hnd hpmem
  simp only [toItem] at hmax ⊢
  obtain ⟨hbmem, hbub⟩ := List.maximum_eq_coe_iff.mp hmax
  have hb : b = a.base_score :=
    le_antisymm (hub b hbmem) (hbub a.base_score hmem)
  have h1 : finalScore a =
      min 1 (b + KEYWORD_BONUS *
        (((kwsContaining krs t).length : ℚ) - 1)) := by
    rw [finalScore, hkms, hb]
  refine ⟨h1, fun hlen => ?_⟩
  rw [h1, hlen]
  norm_num

/-- C1 witness: with keywords `solar` and `panel` both returning
document `D` with score `4/5`, the merged item for `D` has similarity
`min 1 (4/5 + 0.6) = 1`. -/
theorem merged_final_score_formula_witness :
    ((exampleKrs.map Prod.fst).Nodup ∧
      (⟨"D", 1, "en", []⟩ : SearchResultItem) ∈
        merge_keyword_results exampleKrs 10 ∧
      (scoresFor exampleKrs ("D")).maximum = ((4/5 : ℚ) : WithBot ℚ)) ∧
    ((⟨"D", 1, "en", []⟩ : SearchResultItem).similarity =
      min 1 (4/5 + KEYWORD_BONUS *
        (((kwsContaining exampleKrs ("D")).length : ℚ) - 1)) ∧
     ((kwsContaining exampleKrs ("D")).length = 1 →
      (⟨"D", 1, "en", []⟩ : SearchResultItem).similarity = min 1 (4/5))) := by
  have hnd : (exampleKrs.map Prod.fst).Nodup := by
    simp [exampleKrs]
  have heval : merge_keyword_results exampleKrs 10 = [⟨"D", 1, "en", []⟩] := by
    have hcs : combineScores exampleKrs =
        [("D", ⟨4/5, ["solar", "panel"], "en", []⟩)] := by
      simp [combineScores, combineScoresAux, processHits, addHit, insertKw,
        exampleKrs, exampleHit]
    simp only [merge_keyword_results, mergedFull, hcs]
    norm_num [toItem, finalScore, KEYWORD_BONUS]
    simp [sortBySimilarityDesc, insertDesc]
  have hmem : (⟨"D", 1, "en", []⟩ : SearchResultItem) ∈
      merge_keyword_results exampleKrs 10 := by
    rw [heval]
    simp
  have hmax : (scoresFor exampleKrs ("D")).maximum = ((4/5 : ℚ) : WithBot ℚ) := by
    apply List.maximum_eq_coe_iff.mpr
    constructor
    · simp [scoresFor, hitsFor, exampleKrs, exampleHit]
    · intro s hs
      simp [scoresFor, hitsFor, exampleKrs, exampleHit] at hs
      simp [hs]
  exact ⟨⟨hnd, hmem, hmax⟩,
    merged_final_score_formula exampleKrs 10 ⟨"D", 1, "en", []⟩ (4/5)
      hnd hmem hmax⟩

/-- C2: a text appearing in some per-keyword hit sets is deduplicated
into exactly one merged result; its accumulator has `matchedKeywords`
equal to the keywords whose hit sets contain it, `bestScore` equal to
the maximum of its hit scores, and the language and metadata of the
first hit in which the text was seen. -/
theorem merged_dedup_unique_entry
    (krs : List (String × List SearchResult)) (t : String)
    (h0 : SearchResult) (hs0 : List SearchResult)
    (hnd : (krs.map Prod.fst).Nodup)
    (hhits : hitsFor krs t = h0 :: hs0) :
    ∃ a : Accum,
      lookupAcc t (combineScores krs) = some a ∧
      a.keyword_matches = kwsContaining krs t ∧
      (scoresFor krs t).maximum = (a.base_score : WithBot ℚ) ∧
      a.language = h0.language ∧ a.metadata = h0.metadata ∧
      ((mergedFull krs).filter (fun it => it.text = t)).length = 1 ∧
      ∀ m, ((merge_keyword_results krs m).filter
        (fun it => it.text = t)).length ≤ 1 := by
  have hmaster := mergeInv_accumFor t krs hnd
  rw [← lookupAcc_combineScores krs t] at hmaster
  cases hl : lookupAcc t (combineScores krs) with
  | none =>
    rw [hl] at hmaster
    have : hitsFor krs t = [] := hmaster
    rw [hhits] at this
    exact absurd this (by simp)
  | some a =>
    rw [hl] at hmaster
    obtain ⟨hmem, hub, hkms, hfirst⟩ := hmaster
    have hmax : (scoresFor krs t).maximum = (a.base_score : WithBot ℚ) :=
      List.maximum_eq_coe_iff.mpr ⟨hmem, hub⟩
    have hlm := hfirst h0 (by rw [hhits, List.head?_cons])
    have htk : t ∈ (combineScores krs).map Prod.fst :=
      (lookupAcc_isSome_iff_mem t _).mp (by rw [hl]; rfl)
    have hflen : ((mergedFull krs).filter
        (fun it => it.text = t)).length = 1 := by
      have hperm := (sortDesc_perm ((combineScores krs).map toItem)).filter
        (fun it => decide (it.text = t))
      rw [mergedFull, hperm.length_eq, List.filter_map, List.length_map]
      have hfin := assoc_filter_key_length (combineScores krs) t
        (keys_combineScores_nodup krs)
      rw [if_pos htk] at hfin
      exact hfin
    refine ⟨a, rfl, hkms, hmax, hlm.1, hlm.2, hflen, ?_⟩
    intro m
    have hsub := (List.take_sublist m (mergedFull krs)).filter
      (fun it => decide (it.text = t))
    have hle := hsub.length_le
    rw [merge_keyword_results]
    omega

/-- C2 witness: at the concrete two-keyword input, document `D` has
exactly one accumulator entry and one merged item, with both keywords
recorded and the maximum score `4/5`. -/
theorem merged_dedup_unique_entry_witness :
    ((exampleKrs.map Prod.fst).Nodup ∧
      hitsFor exampleKrs ("D") =
        exampleHit ("D") (4/5) :: [exampleHit ("D") (4/5)]) ∧
    (∃ a : Accum,
      lookupAcc ("D") (combineScores exampleKrs) = some a ∧
      a.keyword_matches = kwsContaining exampleKrs ("D") ∧
      (scoresFor exampleKrs ("D")).maximum = (a.base_score : WithBot ℚ) ∧
      a.language = (exampleHit ("D") (4/5)).language ∧
      a.metadata = (exampleHit ("D") (4/5)).metadata ∧
      ((mergedFull exampleKrs).filter
        (fun it => it.text = "D")).length = 1 ∧
      ∀ m, ((merge_keyword_results exampleKrs m).filter
        (fun it => it.text = "D")).length ≤ 1) := by
  have hnd : (exampleKrs.map Prod.fst).Nodup := by
    simp [exampleKrs]
  have hhits : hitsFor exampleKrs ("D") =
      exampleHit ("D") (4/5) :: [exampleHit ("D") (4/5)] := by
    simp [hitsFor, exampleKrs, exampleHit]
  exact ⟨⟨hnd, hhits⟩,
    merged_dedup_unique_entry exampleKrs ("D") (exampleHit ("D") (4/5))
      [exampleHit ("D") (4/5)] hnd hhits⟩

/-- C4 counterexample: a one-keyword request whose two hits tie at final
score `1` is returned in insertion order `b, a`, not in the lexical
order `a, b` that the claimed secondary sort key would require. -/
theorem merge_tie_not_lexical_counterexample :
    merge_keyword_results exampleTieKrs 10 =
      [⟨"b", 1, "en", []⟩, ⟨"a", 1, "en", []⟩] ∧
    ¬ SortedByScoreThenLex (merge_keyword_results exampleTieKrs 10) := by
  have heval : merge_keyword_results exampleTieKrs 10 =
      [⟨"b", 1, "en", []⟩, ⟨"a", 1, "en", []⟩] := by
    have hcs : combineScores exampleTieKrs =
        [("b", ⟨1, ["k"], "en", []⟩), ("a", ⟨1, ["k"], "en", []⟩)] := by
      simp [combineScores, combineScoresAux, processHits, addHit,
        exampleTieKrs, exampleHit]
    simp only [merge_keyword_results, mergedFull, hcs]
    norm_num [toItem, finalScore, KEYWORD_BONUS]
    simp [sortBySimilarityDesc, insertDesc]
  refine ⟨heval, fun hsort => ?_⟩
  rw [SortedByScoreThenLex, heval] at hsort
  rcases List.pairwise_cons.mp hsort with ⟨hrel, _⟩
  rcases hrel ⟨"a", 1, "en", []⟩ (by simp) with h | ⟨_, h⟩
  · exact lt_irrefl _ h
  · exact absurd h (by decide)

/-- C4 amended: merged results are sorted by final score descending, and
the sort is stable: within every class of tied final scores the output
keeps the first-insertion (encounter) order of the accumulator map, not
lexical order of text.  Moreover this pins the order completely: any
list that is sorted descending and agrees with the accumulator order on
every tie class is the merged list, so repeated identical requests
against unchanged per-keyword results return the same order. -/
theorem merge_sorted_by_score_descending
    (krs : List (String × List SearchResult)) (m : ℕ) :
    (merge_keyword_results krs m).Pairwise
      (fun x y => y.similarity ≤ x.similarity) ∧
    (∀ q : ℚ, (mergedFull krs).filter (fun it => it.similarity = q) =
      ((combineScores krs).map toItem).filter
        (fun it => it.similarity = q)) ∧
    (∀ l : List SearchResultItem,
      l.Pairwise (fun x y => y.similarity ≤ x.similarity) →
      (∀ q : ℚ, l.filter (fun it => it.similarity = q) =
        ((combineScores krs).map toItem).filter
          (fun it => it.similarity = q)) →
      l = mergedFull krs) ∧
    merge_keyword_results krs m = (mergedFull krs).take m := by
  refine ⟨(sortDesc_pairwise ((combineScores krs).map toItem)).sublist
    (List.take_sublist m (mergedFull krs)),
    fun q => filter_sortDesc ((combineScores krs).map toItem) q,
    fun l hl hfilt => ?_, rfl⟩
  apply sorted_stable_unique l (mergedFull krs) hl
    (sortDesc_pairwise ((combineScores krs).map toItem))
  intro q
  rw [hfilt q]
  simp only [mergedFull]
  rw [filter_sortDesc]

/-- C4 amended witness: at the concrete tie input, the list `b, a` is
sorted descending and agrees with the accumulator order on every tie
class, and the uniqueness part of the theorem identifies it with the
merged list. -/
theorem merge_sorted_by_score_descending_witness :
    (([⟨"b", 1, "en", []⟩, ⟨"a", 1, "en", []⟩] :
        List SearchResultItem).Pairwise
      (fun x y => y.similarity ≤ x.similarity) ∧
     (∀ q : ℚ, ([⟨"b", 1, "en", []⟩, ⟨"a", 1, "en", []⟩] :
        List SearchResultItem).filter (fun it => it.similarity = q) =
       ((combineScores exampleTieKrs).map toItem).filter
         (fun it => it.similarity = q))) ∧
    ([⟨"b", 1, "en", []⟩, ⟨"a", 1, "en", []⟩] :
      List SearchResultItem) = mergedFull exampleTieKrs := by
  have hmap : (combineScores exampleTieKrs).map toItem =
      [⟨"b", 1, "en", []⟩, ⟨"a", 1, "en", []⟩] := by
    have hcs : combineScores exampleTieKrs =
        [("b", ⟨1, ["k"], "en", []⟩), ("a", ⟨1, ["k"], "en", []⟩)] := by
      simp [combineScores, combineScoresAux, processHits, addHit,
        exampleTieKrs, exampleHit]
    rw [hcs]
    norm_num [toItem, finalScore, KEYWORD_BONUS]
  have hsorted : (([⟨"b", 1, "en", []⟩, ⟨"a", 1, "en", []⟩] :
      List SearchResultItem)).Pairwise
      (fun x y => y.similarity ≤ x.similarity) := by
    simp
  have hfilt : ∀ q : ℚ, ([⟨"b", 1, "en", []⟩, ⟨"a", 1, "en", []⟩] :
      List SearchResultItem).filter (fun it => it.similarity = q) =
      ((combineScores exampleTieKrs).map toItem).filter
        (fun it => it.similarity = q) := by
    intro q
    rw [hmap]
  exact ⟨⟨hsorted, hfilt⟩,
    (merge_sorted_by_score_descending exampleTieKrs 10).2.2.1
      [⟨"b", 1, "en", []⟩, ⟨"a", 1, "en", []⟩] hsorted hfilt⟩

/-- C5: no text appears in the merged output unless some per-keyword
query returned it; under the vector-store contract that every returned
hit clears the request threshold, every merged text has an underlying
hit at or above the threshold. -/
theorem merged_requires_threshold_clearing
    (krs : List (String × List SearchResult)) (m : ℕ) (θ : ℚ)
    (hthr : ∀ p ∈ krs, ∀ r ∈ p.2, θ ≤ r.score) :
    ∀ item ∈ merge_keyword_results krs m,
      ∃ p ∈ krs, ∃ r ∈ p.2, r.text = item.text ∧ θ ≤ r.score := by
  intro item hitem
  obtain ⟨⟨t, a⟩, hpmem, rfl⟩ := item_of_mem_merge krs m item hitem
  have ht : t ∈ (combineScores krs).map Prod.fst :=
    List.mem_map.mpr ⟨(t, a), hpmem, rfl⟩
  rcases keys_combineScoresAux_origin krs [] t
      (by simpa [combineScores] using ht) with h | ⟨p, hp, r, hr, hrt⟩
  · simp at h
  · exact ⟨p, hp, r, hr, hrt, hthr p hp r hr⟩

/-- C5 witness: at the concrete two-keyword input with threshold `1/2`,
every merged item comes from a hit at or above the threshold. -/
theorem merged_requires_threshold_clearing_witness :
    (∀ p ∈ exampleKrs, ∀ r ∈ p.2, (1/2 : ℚ) ≤ r.score) ∧
    (∀ item ∈ merge_keyword_results exampleKrs 10,
      ∃ p ∈ exampleKrs, ∃ r ∈ p.2,
        r.text = item.text ∧ (1/2 : ℚ) ≤ r.score) := by
  have hthr : ∀ p ∈ exampleKrs, ∀ r ∈ p.2, (1/2 : ℚ) ≤ r.score := by
    intro p hp r hr
    rcases (by simpa [exampleKrs] using hp :
        p = ("solar", [exampleHit ("D") (4/5)]) ∨
        p = ("panel", [exampleHit ("D") (4/5)])) with rfl | rfl <;>
      · rcases (by simpa using hr : r = exampleHit ("D") (4/5)) with rfl
        norm_num [exampleHit]
  exact ⟨hthr, merged_requires_threshold_clearing exampleKrs 10 (1/2) hthr⟩

/-! ### The one-keyword case -/

theorem addHit_not_mem {kw : String} {r : SearchResult}
    {acc : List (String × Accum)} (h : r.text ∉ acc.map Prod.fst) :
    addHit kw r acc = acc ++ [(r.text, seedAcc kw r)] := by
  induction acc with
  | nil => simp [addHit, seedAcc]
  | cons p rest ih =>
    obtain ⟨k, a⟩ := p
    rw [List.map_cons, List.mem_cons] at h
    push_neg at h
    have hk : ¬ k = r.text := fun hc => h.1 hc.symm
    rw [addHit, if_neg hk, ih h.2, List.cons_append]

theorem processHits_all_new {kw : String} {rs : List SearchResult}
    {acc : List (String × Accum)}
    (hnd : (rs.map SearchResult.text).Nodup)
    (hdisj : ∀ r ∈ rs, r.text ∉ acc.map Prod.fst) :
    processHits kw rs acc =
      acc ++ rs.map (fun r => (r.text, seedAcc kw r)) := by
  induction rs generalizing acc with
  | nil => simp [processHits]
  | cons r rest ih =>
    rw [List.map_cons, List.nodup_cons] at hnd
    rw [processHits, addHit_not_mem (hdisj r (by simp))]
    rw [ih hnd.2]
    · simp
    · intro r2 hr2
      rw [List.map_append, List.mem_append]
      push_neg
      refine ⟨hdisj r2 (by simp [hr2]), ?_⟩
      simp only [List.map_cons, List.map_nil, List.mem_singleton]
      intro hc
      exact hnd.1 (hc ▸ List.mem_map.mpr ⟨r2, hr2, rfl⟩)

theorem combineScores_single (kw : String) (rs : List SearchResult)
    (hnd : (rs.map SearchResult.text).Nodup) :
    combineScores [(kw, rs)] =
      rs.map (fun r => (r.text, seedAcc kw r)) := by
  rw [combineScores, combineScoresAux, combineScoresAux]
  rw [processHits_all_new hnd (by simp)]
  simp

theorem finalScore_seedAcc (kw : String) (r : SearchResult) :
    finalScore (seedAcc kw r) = min 1 r.score := by
  simp [finalScore, seedAcc]

/-- C3: a one-keyword search produces exactly the direct vector-store
query result: same texts, same order, and the merged similarity equals
the raw per-keyword score (the bonus is exactly zero), for every base
score in `[0,1]`.  The hypotheses are the vector-store contract: hits
have pairwise-distinct texts, are sorted by score descending, carry
scores in `[0,1]`, and number at most `top_k = max_results`. -/
theorem single_keyword_search_equiv
    (idxSearch : String → ℕ → ℚ → List SearchResult)
    (req : SearchRequest) (kw : String)
    (hkw : req.keywords = [kw])
    (hnd : ((idxSearch kw req.max_results.toNat req.threshold).map
      SearchResult.text).Nodup)
    (hsorted : (idxSearch kw req.max_results.toNat req.threshold).Pairwise
      (fun a b => b.score ≤ a.score))
    (hrange : ∀ r ∈ idxSearch kw req.max_results.toNat req.threshold,
      0 ≤ r.score ∧ r.score ≤ 1)
    (hlen : (idxSearch kw req.max_results.toNat req.threshold).length ≤
      req.max_results.toNat) :
    search idxSearch req =
      (idxSearch kw req.max_results.toNat req.threshold).map
        (fun r => ⟨r.text, r.score, r.language, r.metadata⟩) := by
  have hsearch : search idxSearch req =
      merge_keyword_results
        [(kw, idxSearch kw req.max_results.toNat req.threshold)]
        req.max_results.toNat := by
    simp only [search, hkw, List.foldl_cons, List.foldl_nil, dictInsert]
  rw [hsearch, merge_keyword_results, mergedFull,
    combineScores_single kw _ hnd, List.map_map]
  have hmap : (idxSearch kw req.max_results.toNat req.threshold).map
      (toItem ∘ fun r => (r.text, seedAcc kw r)) =
      (idxSearch kw req.max_results.toNat req.threshold).map
        (fun r => ⟨r.text, r.score, r.language, r.metadata⟩) := by
    apply List.map_congr_left
    intro r hr
    show toItem (r.text, seedAcc kw r) = _
    have h1 : toItem (r.text, seedAcc kw r) =
        ⟨r.text, min 1 r.score, r.language, r.metadata⟩ := by
      rw [toItem, finalScore_seedAcc]
      rfl
    rw [h1, min_eq_right (hrange r hr).2]
  rw [hmap]
  rw [sortDesc_eq_of_sorted _ (List.pairwise_map.mpr hsorted)]
  rw [List.take_of_length_le (by simpa using hlen)]

/-- C3 witness: the concrete one-keyword request for `solar` returns
exactly the direct query result `D` with its raw score `4/5`. -/
theorem single_keyword_search_equiv_witness :
    (exampleReq.keywords = ["solar"] ∧
     ((exampleIdx ("solar") exampleReq.max_results.toNat
        exampleReq.threshold).map SearchResult.text).Nodup ∧
     (exampleIdx ("solar") exampleReq.max_results.toNat
        exampleReq.threshold).length ≤ exampleReq.max_results.toNat) ∧
    search exampleIdx exampleReq =
      (exampleIdx ("solar") exampleReq.max_results.toNat
        exampleReq.threshold).map
        (fun r => ⟨r.text, r.score, r.language, r.metadata⟩) := by
  have hidx : exampleIdx ("solar") exampleReq.max_results.toNat
      exampleReq.threshold = [exampleHit ("D") (4/5)] := by
    simp [exampleIdx]
  have hkw : exampleReq.keywords = ["solar"] := rfl
  have hnd : ((exampleIdx ("solar") exampleReq.max_results.toNat
      exampleReq.threshold).map SearchResult.text).Nodup := by
    rw [hidx]
    simp
  have hsorted : (exampleIdx ("solar") exampleReq.max_results.toNat
      exampleReq.threshold).Pairwise (fun a b => b.score ≤ a.score) := by
    rw [hidx]
    simp
  have hrange : ∀ r ∈ exampleIdx ("solar") exampleReq.max_results.toNat
      exampleReq.threshold, 0 ≤ r.score ∧ r.score ≤ 1 := by
    rw [hidx]
    intro r hr
    rcases (by simpa using hr : r = exampleHit ("D") (4/5)) with rfl
    constructor <;> norm_num [exampleHit]
  have hlen : (exampleIdx ("solar") exampleReq.max_results.toNat
      exampleReq.threshold).length ≤ exampleReq.max_results.toNat := by
    rw [hidx]
    simp [exampleReq]
  exact ⟨⟨hkw, hnd, hlen⟩,
    single_keyword_search_equiv exampleIdx exampleReq ("solar")
      hkw hnd hsorted hrange hlen⟩

/-! ### Request validation and the cache manager -/

/-- C6: constructing a `SearchRequest` raises a validation error exactly
when the keywords list is empty, the threshold is outside `[0,1]`, or
`max_results < 1`; a successful construction returns the request with
exactly the given fields, all validated, so no partially-valid request
ever reaches the search code. -/
theorem searchRequest_validation (ks : List String) (θ : ℚ) (m : ℤ)
    (lang : Option String) :
    ((∃ e, mkSearchRequest ks θ m lang = .error e) ↔
      (ks = [] ∨ θ < 0 ∨ 1 < θ ∨ m < 1)) ∧
    (∀ r, mkSearchRequest ks θ m lang = .ok r →
      r.keywords = ks ∧ r.threshold = θ ∧ r.max_results = m ∧
      r.language = lang ∧ ks ≠ [] ∧ 0 ≤ θ ∧ θ ≤ 1 ∧ 1 ≤ m) := by
  constructor
  · constructor
    · rintro ⟨e, he⟩
      by_cases h1 : ks = []
      · exact Or.inl h1
      · by_cases h2 : 0 ≤ θ ∧ θ ≤ 1
        · by_cases h3 : m < 1
          · exact Or.inr (Or.inr (Or.inr h3))
          · exfalso
            unfold mkSearchRequest at he
            rw [if_neg h1, if_neg (not_not_intro h2), if_neg h3] at he
            simp at he
        · rcases not_and_or.mp h2 with h | h
          · exact Or.inr (Or.inl (lt_of_not_le h))
          · exact Or.inr (Or.inr (Or.inl (lt_of_not_le h)))
    · intro h
      rcases h with hks | hθ | hθ | hm
      · exact ⟨_, by rw [mkSearchRequest, if_pos hks]⟩
      · by_cases hks : ks = []
        · exact ⟨_, by rw [mkSearchRequest, if_pos hks]⟩
        · have hcond : ¬ (0 ≤ θ ∧ θ ≤ 1) :=
            fun hc => absurd hθ (not_lt.mpr hc.1)
          exact ⟨_, by rw [mkSearchRequest, if_neg hks, if_pos hcond]⟩
      · by_cases hks : ks = []
        · exact ⟨_, by rw [mkSearchRequest, if_pos hks]⟩
        · have hcond : ¬ (0 ≤ θ ∧ θ ≤ 1) :=
            fun hc => absurd hθ (not_lt.mpr hc.2)
          exact ⟨_, by rw [mkSearchRequest, if_neg hks, if_pos hcond]⟩
      · by_cases hks : ks = []
        · exact ⟨_, by rw [mkSearchRequest, if_pos hks]⟩
        · by_cases hcond : 0 ≤ θ ∧ θ ≤ 1
          · exact ⟨_, by
              rw [mkSearchRequest, if_neg hks,
                if_neg (not_not_intro hcond), if_pos hm]⟩
          · exact ⟨_, by rw [mkSearchRequest, if_neg hks, if_pos hcond]⟩
  · intro r hr
    unfold mkSearchRequest at hr
    by_cases h1 : ks = []
    · rw [if_pos h1] at hr
      simp at hr
    · by_cases h2 : 0 ≤ θ ∧ θ ≤ 1
      · by_cases h3 : m < 1
        · rw [if_neg h1, if_neg (not_not_intro h2), if_pos h3] at hr
          simp at hr
        · rw [if_neg h1, if_neg (not_not_intro h2), if_neg h3] at hr
          injection hr with hr2
          subst hr2
          exact ⟨rfl, rfl, rfl, rfl, h1, h2.1, h2.2, not_lt.mp h3⟩
      · rw [if_neg h1, if_pos h2] at hr
        simp at hr

/-- C6 witness: the empty-keywords request raises at construction. -/
theorem searchRequest_validation_witness :
    ∃ e, mkSearchRequest [] (1/2) 10 none = .error e :=
  (searchRequest_validation [] (1/2) 10 none).1.mpr (Or.inl rfl)

/-- C8: with `use_cache` true, `force_reprocess` false and an existing
cache file, a cache load failure makes `load_or_process_data` fall
through to reprocessing and return the reprocessed records. -/
theorem loadOrProcess_fallback_on_load_failure (e : String)
    (reproc : List ProcessedText) :
    load_or_process_data ⟨true, false⟩ true (.error e) reproc = reproc := by
  simp [load_or_process_data, should_use_cache, load_from_cache, Except.map]

/-- C9: with caching enabled, a successful append rewrites the cache to
the old contents followed by the new records and returns normally, while
a load failure raises and leaves the cache untouched; the lock is taken
and is released on both exit paths. -/
theorem append_to_cache_spec (cache : Option (List ProcessedText))
    (new : List ProcessedText) :
    (append_to_cache true cache none new =
      ⟨.ok (), some (cache.getD [] ++ new), true, false⟩) ∧
    (∀ e, append_to_cache true cache (some e) new =
      ⟨.error e, cache, true, false⟩) :=
  ⟨rfl, fun _ => rfl⟩

/-- C10: with `use_cache` false, `append_to_cache` returns immediately:
no error, no lock acquisition, and the cache file is left unchanged. -/
theorem append_to_cache_noop_when_disabled
    (cache : Option (List ProcessedText)) (loadFailure : Option String)
    (new : List ProcessedText) :
    append_to_cache false cache loadFailure new =
      ⟨.ok (), cache, false, false⟩ := rfl

end PatentSearch

namespace TextChallenge

/-! ### The text processor -/

theorem process_text_true_eq_map (detect : String → String)
    (embed : String → List ℚ) (minLen : ℕ) (text : String) :
    process_text detect embed minLen true text =
      (process_text detect embed minLen false text).map
        (fun p => { p with embedding := some (embed p.text) }) := by
  simp only [process_text]
  by_cases h1 : (pyStrip text).length < minLen
  · simp [h1]
  · by_cases h2 : clean_text text = ""
    · simp [h1, h2]
    · simp [h1, h2]

theorem filterMap_true_eq_attach (detect : String → String)
    (embed : String → List ℚ) (minLen : ℕ) (l : List String) :
    l.filterMap (process_text detect embed minLen true) =
      attachEmbeddings embed
        (l.filterMap (process_text detect embed minLen false)) := by
  rw [attachEmbeddings, List.map_filterMap]
  apply List.filterMap_congr
  intro t _
  exact process_text_true_eq_map detect embed minLen t

theorem batch_process_eq_filterMap (detect : String → String)
    (embed : String → List ℚ) (minLen bs : ℕ) (hbs : 0 < bs) :
    ∀ texts : List String,
      batch_process detect embed minLen bs true texts =
        texts.filterMap (process_text detect embed minLen true) := by
  have hbs0 : ¬ bs = 0 := Nat.pos_iff_ne_zero.mp hbs
  have main : ∀ n (texts : List String), texts.length ≤ n →
      batch_process detect embed minLen bs true texts =
        texts.filterMap (process_text detect embed minLen true) := by
    intro n
    induction n with
    | zero =>
      intro texts h
      have : texts = [] := List.eq_nil_of_length_eq_zero (Nat.le_zero.mp h)
      subst this
      simp [batch_process]
    | succ n ih =>
      intro texts hlen
      cases texts with
      | nil => simp [batch_process]
      | cons t ts =>
        rw [batch_process, dif_neg hbs0]
        simp only []
        have hchunk :
            (if (true && !(((t :: ts).take bs).filterMap
                (process_text detect embed minLen false)).isEmpty) = true
             then attachEmbeddings embed (((t :: ts).take bs).filterMap
                (process_text detect embed minLen false))
             else ((t :: ts).take bs).filterMap
                (process_text detect embed minLen false)) =
            ((t :: ts).take bs).filterMap
              (process_text detect embed minLen true) := by
          by_cases hemp : ((t :: ts).take bs).filterMap
              (process_text detect embed minLen false) = []
          · rw [filterMap_true_eq_attach, hemp]
            simp [hemp, attachEmbeddings]
          · rw [if_pos (by simp [hemp]), filterMap_true_eq_attach]
        rw [hchunk]
        have hdrop : ((t :: ts).drop bs).length ≤ n := by
          simp only [List.length_drop, List.length_cons]
          simp only [List.length_cons] at hlen
          omega
        rw [ih ((t :: ts).drop bs) hdrop]
        rw [← List.filterMap_append, List.take_append_drop]
  exact fun texts => main texts.length texts le_rfl

/-- C7 counterexample: the input `aaaa!!!!bbbb` has cleaned length
`9 < 10`, yet `process_text` accepts it, because the source checks the
length of the stripped raw text (12 characters), not the cleaned text. -/
theorem process_text_checks_raw_not_cleaned_counterexample :
    (clean_text ("aaaa!!!!bbbb")).length < 10 ∧
    process_text (fun _ => "en") (fun _ => []) 10 true ("aaaa!!!!bbbb") ≠
      none := by
  constructor
  · decide
  · decide

/-- C7 amended: `process_text` returns `none` exactly when the stripped
raw input is shorter than the minimum length or the cleaned text is
empty (not when the cleaned length is below the minimum); and
`batch_process` silently drops exactly the rejected entries, returning
`filterMap` of the batch, so an empty batch yields an empty result and
no input raises. -/
theorem process_text_none_iff_and_batch_drops (detect : String → String)
    (embed : String → List ℚ) (minLen bs : ℕ) (hbs : 0 < bs)
    (texts : List String) :
    (∀ t : String, process_text detect embed minLen true t = none ↔
      ((pyStrip t).length < minLen ∨ clean_text t = "")) ∧
    batch_process detect embed minLen bs true texts =
      texts.filterMap (process_text detect embed minLen true) ∧
    batch_process detect embed minLen bs true [] = [] := by
  refine ⟨?_, batch_process_eq_filterMap detect embed minLen bs hbs texts,
    by simp [batch_process]⟩
  intro t
  unfold process_text
  split_ifs with h1 h2
  · simp [h1]
  · simp [h1, h2]
  · simp [h1, h2]

/-- C7 witness: with the default minimum length 10 and batch size 32,
the batch `[Hi, Valid text here]` drops the short entry and keeps the
valid one. -/
theorem process_text_none_iff_and_batch_drops_witness :
    0 < 32 ∧
    ((∀ t : String,
        process_text (fun _ => "en") (fun _ => []) 10 true t = none ↔
        ((pyStrip t).length < 10 ∨ clean_text t = "")) ∧
      batch_process (fun _ => "en") (fun _ => []) 10 32 true
          ["Hi", "Valid text here"] =
        (["Hi", "Valid text here"]).filterMap
          (process_text (fun _ => "en") (fun _ => []) 10 true) ∧
      batch_process (fun _ => "en") (fun _ => []) 10 32 true [] = []) :=
  ⟨by decide,
    process_text_none_iff_and_batch_drops (fun _ => "en") (fun _ => [])
      10 32 (by decide) ["Hi", "Valid text here"]⟩

end TextChallenge
